import Mathlib

/-!
CAN-Monitor-qt: identity keys, ingest and column schema of `CanTreeModel`.

A shallow embedding of `src/CanTree/CanTreeModel.cpp` and
`src/CanTree/MessageTreeNode.h`.

* machine integers are `Nat`/`Int`; a store into a `uint32_t` is `% 2 ^ 32`;
* pointers to `MessageTreeNode` objects are positions in a heap (`List`);
* `emit` appends to a log of signals carried by the model state.
-/

namespace CanMonitor

/-! ## Frames and identity keys -/

/-- The frame record `can_message_t` read by `CanUniqueID` and `inputMessage`
(fields `id`, `IDE`, `RTR`, `dlc`, `data`). The widths of its fields are not
fixed here: bounds are stated where a theorem needs them. -/
structure can_message_t where
  id : Nat
  IDE : Nat
  RTR : Nat
  dlc : Nat
  data : List Nat
deriving DecidableEq, Repr

/-- The constructor `CanUniqueID::CanUniqueID(const can_message_t *)`: the value
left in the `uint32_t` member `val` after the three statements
`val = id & 0x1fffffff; val |= IDE << 31; val |= RTR << 30;`, each store taken
modulo `2 ^ 32`. -/
def CanUniqueID (cmsg : can_message_t) : Nat :=
  let val := (cmsg.id &&& 0x1fffffff) % 2 ^ 32
  let val := (val ||| (cmsg.IDE <<< 31)) % 2 ^ 32
  (val ||| (cmsg.RTR <<< 30)) % 2 ^ 32

/-- The identity of a frame: the triple (identifier, extended flag, remote flag). -/
def identity (cmsg : can_message_t) : Nat × Nat × Nat :=
  (cmsg.id, cmsg.IDE, cmsg.RTR)

/-! ## Column schema -/

/-- The column functions named by the constructor of `CanTreeModel`
(`enum dataFunction`). -/
inductive dataFunction
  | dfName | dfID | dfDLC | dfCount | dfPeriod | dfRawData | dfDataDecoded | dfFormat
deriving DecidableEq, Repr

/-- A `QVariant` holding a header label; `none` is the invalid `QVariant()`. -/
abbrev QVariant := Option String

/-- The list `m_columnFunctions` as the constructor `CanTreeModel::CanTreeModel()` leaves it:
eight `append` calls on an empty list, in this order. -/
def m_columnFunctions : List (dataFunction × QVariant) :=
  [ (dataFunction.dfName,        some "Name"),
    (dataFunction.dfID,          some "ID (HEX)"),
    (dataFunction.dfDLC,         some "DLC"),
    (dataFunction.dfCount,       some "Count"),
    (dataFunction.dfPeriod,      some "Period (ms)"),
    (dataFunction.dfRawData,     some "Raw Data (HEX)"),
    (dataFunction.dfDataDecoded, some "Decoded Data"),
    (dataFunction.dfFormat,      some "Format String") ]

/-- The call `QList<T>::value(int i)`: the element at `i`, or a default-constructed value
when `i` is out of bounds. -/
def QList_value {α : Type} (l : List α) (i : Int) (dflt : α) : α :=
  if 0 ≤ i ∧ i < l.length then l.getD i.toNat dflt else dflt

/-- A `QModelIndex`: row, column, and whether it belongs to a model. -/
structure QModelIndex where
  row : Int
  column : Int
  model : Bool
deriving DecidableEq, Repr

/-- The test `QModelIndex::isValid()`: row and column non-negative, model set. -/
def QModelIndex.isValid (i : QModelIndex) : Bool :=
  decide (0 ≤ i.row) && decide (0 ≤ i.column) && i.model

/-- The default-constructed `QModelIndex()`. -/
def QModelIndex.invalid : QModelIndex := ⟨-1, -1, false⟩

inductive Orientation
  | Horizontal | Vertical
deriving DecidableEq, Repr

/-- The role `Qt::DisplayRole`. -/
def DisplayRole : Int := 0

/-- The flag `Qt::ItemIsSelectable`. -/
def ItemIsSelectable : Nat := 1
/-- The flag `Qt::ItemIsEditable`. -/
def ItemIsEditable : Nat := 2
/-- The flag `Qt::ItemIsDragEnabled`. -/
def ItemIsDragEnabled : Nat := 4
/-- The flag `Qt::ItemIsDropEnabled`. -/
def ItemIsDropEnabled : Nat := 8
/-- The flag `Qt::ItemIsEnabled`. -/
def ItemIsEnabled : Nat := 32

/-- The test `QFlags::testFlag`. -/
def testFlag (fl flag : Nat) : Bool :=
  (fl &&& flag == flag) && (flag != 0 || fl == flag)

/-- The method `CanTreeModel::columnCount(const QModelIndex &parent)`. -/
def columnCount (_parent : QModelIndex) : Int :=
  m_columnFunctions.length

/-- The method `CanTreeModel::headerData`. The parameter `df0` is the `dataFunction` of
value 0, the first component of a default-constructed pair (the enum is declared
in `TreeNode.h`). -/
def headerData (df0 : dataFunction) (section_ : Int) (orientation : Orientation)
    (role : Int) : QVariant :=
  if orientation = Orientation.Horizontal ∧ role = DisplayRole then
    (QList_value m_columnFunctions section_ (df0, none)).2
  else
    none

/-- The method `CanTreeModel::flags`; out-of-range columns read the default pair,
whose function is `df0` (see `headerData`). -/
def flags (df0 : dataFunction) (index : QModelIndex) : Nat :=
  if !index.isValid then
    ItemIsDropEnabled
  else
    let flags : Nat :=
      match (QList_value m_columnFunctions index.column (df0, none)).1 with
      | dataFunction.dfName => ItemIsDragEnabled ||| ItemIsDropEnabled ||| ItemIsEditable
      | dataFunction.dfFormat => ItemIsDragEnabled ||| ItemIsDropEnabled ||| ItemIsEditable
      | _ => 0
    flags ||| ItemIsEnabled ||| ItemIsSelectable

/-- Position of a column function in the schema, if it has a column. -/
def columnOf (df : dataFunction) : Option Nat :=
  let i := m_columnFunctions.findIdx (fun p => p.1 == df)
  if i < m_columnFunctions.length then some i else none

/-! ## Message leaves -/

/-- The data members of `MessageTreeNode` (`MessageTreeNode.h`): the bit fields
`IDE:1`, `RTR:1`, `id:29`, `dlc:4`, the payload `data[8]` and `m_count`. The timer
and the rendered strings are left out. -/
structure MessageTreeNode where
  IDE : Nat
  RTR : Nat
  id : Nat
  dlc : Nat
  data : List Nat
  m_count : Int
deriving DecidableEq, Repr

/-- Modelled from the spec: the body of `MessageTreeNode::update` (declared in
`MessageTreeNode.h`, defined in `MessageTreeNode.cpp`). Per §4.2 step 4 it
increments the arrival count and overwrites data-length-code and payload bytes;
the stored `dlc` is the 4-bit field of the header, and the count is not bounded. -/
def MessageTreeNode.update (n : MessageTreeNode) (cmsg : can_message_t) : MessageTreeNode :=
  { n with m_count := n.m_count + 1, dlc := cmsg.dlc % 2 ^ 4, data := cmsg.data }

/-- Modelled from the spec: the constructor `MessageTreeNode(const can_message_t *)`
(defined in `MessageTreeNode.cpp`). Per §4.2 step 3 the leaf is initialised from
the frame with count 1; identifier and flags are stored in the header's bit fields. -/
def MessageTreeNode.ofMessage (cmsg : can_message_t) : MessageTreeNode :=
  { IDE := cmsg.IDE % 2, RTR := cmsg.RTR % 2, id := cmsg.id % 2 ^ 29,
    dlc := cmsg.dlc % 2 ^ 4, data := cmsg.data, m_count := 1 }

/-! ## The model state -/

/-- A child of the root: a message leaf (a pointer into the heap of message nodes)
or some other node (a `HeaderTreeNode` group added by the user). -/
inductive TreeNodeRef
  | message (p : Nat)
  | header (p : Nat)
deriving DecidableEq, Repr

/-- Signals emitted by the model. `dataChanged node left right` is
`dataChanged(indexForNode(node, left), indexForNode(node, right))`;
`rowsInserted first last` reports rows inserted under the root. -/
inductive Signal
  | dataChanged (node : Nat) (left right : Int)
  | rowsInserted (first last : Nat)
deriving DecidableEq, Repr

/-- The state of a `CanTreeModel` that `inputMessage` reads and writes:
the heap of `MessageTreeNode` objects (a pointer is a position), the index
`map` (a `QMap<uint32_t, MessageTreeNode*>`, entries in insertion order), the
children of the root node in order, and the signals emitted so far. -/
structure CanTreeModel where
  heap : List MessageTreeNode
  map : List (Nat × Nat)
  rootChildren : List TreeNodeRef
  emitted : List Signal
deriving DecidableEq, Repr

/-- A freshly constructed model. -/
def CanTreeModel.empty : CanTreeModel := ⟨[], [], [], []⟩

/-- The lookup `QMap::contains(key)` with `QMap::operator[](key)` on a present key: the value
mapped to `key`, `none` when the map does not contain it. -/
def QMap_find : List (Nat × Nat) → Nat → Option Nat
  | [], _ => none
  | (k, v) :: m, key => if k = key then some v else QMap_find m key

/-- The store `map[key] = value`: replaces the value of a present key, adds an entry otherwise. -/
def QMap_insert : List (Nat × Nat) → Nat → Nat → List (Nat × Nat)
  | [], key, value => [(key, value)]
  | (k, v) :: m, key, value =>
    if k = key then (k, value) :: m else (k, v) :: QMap_insert m key value

/-- Modelled from the spec: `TreeModel::insertNode(parent, position, node)` (defined
in `TreeModel.cpp`) for the root parent `QModelIndex()`, the only parent
`inputMessage` passes. Per §4.3 the node goes under the parent at the given
position, a negative position meaning append, and per §4.2 step 3 a
structural-insert notification covers the new row. -/
def insertNode (s : CanTreeModel) (position : Int) (node : TreeNodeRef) : CanTreeModel :=
  let row : Nat := if position < 0 then s.rootChildren.length else position.toNat
  { s with
    rootChildren := s.rootChildren.take row ++ node :: s.rootChildren.drop row,
    emitted := s.emitted ++ [Signal.rowsInserted row row] }

/-- The method `CanTreeModel::inputMessage(const can_message_t * cmsg)`: the `some`
branch is `map.contains(uid)` with `node = map[uid]`, the `none` branch is the `else`. -/
def inputMessage (s : CanTreeModel) (cmsg : can_message_t) : CanTreeModel :=
  let uid := CanUniqueID cmsg
  match QMap_find s.map uid with
  | some node =>
    let s1 := { s with heap := s.heap.modify (fun n => n.update cmsg) node }
    let miLeft : Int := 2
    let miRight : Int := columnCount QModelIndex.invalid - 1
    { s1 with emitted := s1.emitted ++ [Signal.dataChanged node miLeft miRight] }
  | none =>
    let node := s.heap.length
    let s1 := { s with heap := s.heap ++ [MessageTreeNode.ofMessage cmsg] }
    let s2 := { s1 with map := QMap_insert s1.map uid node }
    insertNode s2 (-1) (TreeNodeRef.message node)

/-- The receive loop of `MainWindow::tickTimerTimeout`: every received frame is
passed to `inputMessage`, in order. -/
def inputMessages (s : CanTreeModel) (frames : List can_message_t) : CanTreeModel :=
  frames.foldl inputMessage s

/-- The columns covered by a `dataChanged` signal, first to last. -/
def notifiedColumns : Signal → List Int
  | Signal.dataChanged _ left right => (List.range (right + 1 - left).toNat).map (fun i => left + i)
  | Signal.rowsInserted _ _ => []

/-- The column functions of the columns covered by a `dataChanged` signal. -/
def notifiedFunctions (df0 : dataFunction) (sig : Signal) : List dataFunction :=
  (notifiedColumns sig).map (fun c => (QList_value m_columnFunctions c (df0, none)).1)

/-- The shape every state reached from the empty model by ingest alone has:
the `i`-th index entry points to heap position `i`, the root's children are the
message leaves in creation order, and no key occurs twice in the index. -/
def Ingested (s : CanTreeModel) : Prop :=
  s.map.map Prod.snd = List.range s.heap.length
    ∧ s.rootChildren = (List.range s.heap.length).map TreeNodeRef.message
    ∧ (s.map.map Prod.fst).Nodup

/-- A frame as the adapter delivers it (§6): identifier of at most 29 bits and
one-bit flags. -/
def validFrame (f : can_message_t) : Prop :=
  f.id < 2 ^ 29 ∧ f.IDE ≤ 1 ∧ f.RTR ≤ 1

instance (f : can_message_t) : Decidable (validFrame f) := by
  unfold validFrame; infer_instance

/-! ## Arithmetic of the key -/

theorem lor_two_pow_of_lt {b i : Nat} (h : b < 2 ^ i) : b ||| 2 ^ i = b + 2 ^ i := by
  have := Nat.mul_add_lt_is_or h 1
  rw [Nat.mul_one] at this
  rw [Nat.lor_comm, ← this, Nat.add_comm]

theorem lor_two_pows_of_lt {x : Nat} (h : x < 2 ^ 29) :
    (x ||| 2 ^ 31) ||| 2 ^ 30 = x + 2 ^ 30 + 2 ^ 31 := by
  rw [Nat.or_comm x, Nat.or_assoc, lor_two_pow_of_lt (by omega : x < 2 ^ 30), Nat.or_comm,
    lor_two_pow_of_lt (by omega : x + 2 ^ 30 < 2 ^ 31)]

/-- With one-bit flags the key is the sum of three disjoint bit fields. -/
theorem CanUniqueID_eq_sum (f : can_message_t) (hI : f.IDE ≤ 1) (hR : f.RTR ≤ 1) :
    CanUniqueID f = f.id % 2 ^ 29 + f.RTR * 2 ^ 30 + f.IDE * 2 ^ 31 := by
  have hmask : f.id &&& 0x1fffffff = f.id % 2 ^ 29 := Nat.and_pow_two_sub_one_eq_mod f.id 29
  have hlt : f.id % 2 ^ 29 < 2 ^ 29 := Nat.mod_lt _ (by norm_num)
  have e31 : (1 : Nat) <<< 31 = 2 ^ 31 := by decide
  have e30 : (1 : Nat) <<< 30 = 2 ^ 30 := by decide
  have hI2 : f.IDE = 0 ∨ f.IDE = 1 := by omega
  have hR2 : f.RTR = 0 ∨ f.RTR = 1 := by omega
  unfold CanUniqueID
  simp only [hmask]
  rw [Nat.mod_eq_of_lt (by omega : f.id % 2 ^ 29 < 2 ^ 32)]
  rcases hI2 with hI0 | hI1 <;> rcases hR2 with hR0 | hR1
  · simp only [hI0, hR0, Nat.zero_shiftLeft, Nat.or_zero]
    omega
  · simp only [hI0, hR1, Nat.zero_shiftLeft, Nat.or_zero, e30]
    rw [Nat.mod_eq_of_lt (by omega : f.id % 2 ^ 29 < 2 ^ 32),
      lor_two_pow_of_lt (by omega : f.id % 2 ^ 29 < 2 ^ 30)]
    omega
  · simp only [hI1, hR0, Nat.zero_shiftLeft, Nat.or_zero, e31]
    rw [lor_two_pow_of_lt (by omega : f.id % 2 ^ 29 < 2 ^ 31)]
    omega
  · simp only [hI1, hR1, e31, e30]
    have hb : f.id % 2 ^ 29 ||| 2 ^ 31 < 2 ^ 32 := by
      rw [lor_two_pow_of_lt (by omega : f.id % 2 ^ 29 < 2 ^ 31)]
      omega
    rw [Nat.mod_eq_of_lt hb, lor_two_pows_of_lt hlt]
    omega

theorem CanUniqueID_lt (f : can_message_t) : CanUniqueID f < 2 ^ 32 := by
  unfold CanUniqueID
  exact Nat.mod_lt _ (by norm_num)

/-- The key reads only the low 29 bits of the identifier. -/
theorem CanUniqueID_congr (f g : can_message_t) (hid : f.id % 2 ^ 29 = g.id % 2 ^ 29)
    (hI : f.IDE = g.IDE) (hR : f.RTR = g.RTR) : CanUniqueID f = CanUniqueID g := by
  have hf : f.id &&& 0x1fffffff = f.id % 2 ^ 29 := Nat.and_pow_two_sub_one_eq_mod f.id 29
  have hg : g.id &&& 0x1fffffff = g.id % 2 ^ 29 := Nat.and_pow_two_sub_one_eq_mod g.id 29
  unfold CanUniqueID
  simp only [hf, hg, hid, hI, hR]

/-- The one-line formula of the key, without the intermediate stores. -/
theorem CanUniqueID_eq_formula (f : can_message_t) (hI : f.IDE ≤ 1) :
    CanUniqueID f
      = ((f.id &&& 0x1FFFFFFF) ||| (f.IDE <<< 31) ||| (f.RTR <<< 30)) % 2 ^ 32 := by
  have hmask : f.id &&& 0x1fffffff = f.id % 2 ^ 29 := Nat.and_pow_two_sub_one_eq_mod f.id 29
  have hlt : f.id % 2 ^ 29 < 2 ^ 29 := Nat.mod_lt _ (by norm_num)
  have h1 : (f.id &&& 0x1fffffff) % 2 ^ 32 = f.id &&& 0x1fffffff := by
    rw [hmask]; exact Nat.mod_eq_of_lt (by omega)
  have h2 : ((f.id &&& 0x1fffffff) ||| (f.IDE <<< 31)) % 2 ^ 32
      = (f.id &&& 0x1fffffff) ||| (f.IDE <<< 31) := by
    apply Nat.mod_eq_of_lt
    apply Nat.or_lt_two_pow
    · rw [hmask]; omega
    · have hI2 : f.IDE = 0 ∨ f.IDE = 1 := by omega
      rcases hI2 with h | h <;> rw [h] <;> decide
  unfold CanUniqueID
  simp only [h1, h2]


/-- Keys of valid frames are equal only for equal identities. -/
theorem CanUniqueID_eq_iff (f g : can_message_t) (hf : validFrame f) (hg : validFrame g) :
    CanUniqueID f = CanUniqueID g ↔ identity f = identity g := by
  obtain ⟨hfid, hfI, hfR⟩ := hf
  obtain ⟨hgid, hgI, hgR⟩ := hg
  have hsf := CanUniqueID_eq_sum f hfI hfR
  have hsg := CanUniqueID_eq_sum g hgI hgR
  simp only [identity, Prod.mk.injEq]
  constructor
  · intro h
    rw [hsf, hsg] at h
    refine ⟨?_, ?_, ?_⟩ <;> omega
  · rintro ⟨h1, h2, h3⟩
    rw [hsf, hsg, h1, h2, h3]

/-! ## The index map -/

theorem QMap_find_eq_none_iff (m : List (Nat × Nat)) (key : Nat) :
    QMap_find m key = none ↔ key ∉ m.map Prod.fst := by
  induction m with
  | nil => simp [QMap_find]
  | cons e m ih =>
    obtain ⟨k, v⟩ := e
    by_cases hk : k = key
    · simp [QMap_find, hk]
    · have hk2 : ¬ key = k := fun h => hk h.symm
      simp [QMap_find, hk, hk2, ih]

theorem QMap_find_some_mem (m : List (Nat × Nat)) (key v : Nat)
    (h : QMap_find m key = some v) : (key, v) ∈ m := by
  induction m with
  | nil => simp [QMap_find] at h
  | cons e m ih =>
    obtain ⟨k, w⟩ := e
    by_cases hk : k = key
    · simp [QMap_find, hk] at h
      simp [hk, h]
    · simp only [QMap_find, hk, if_false] at h
      exact List.mem_cons_of_mem _ (ih h)

theorem QMap_find_of_mem_keys (m : List (Nat × Nat)) (key : Nat)
    (h : key ∈ m.map Prod.fst) : ∃ v, QMap_find m key = some v := by
  cases hf : QMap_find m key with
  | none => exact absurd h ((QMap_find_eq_none_iff m key).mp hf)
  | some v => exact ⟨v, rfl⟩

theorem QMap_insert_of_find_none (m : List (Nat × Nat)) (key value : Nat)
    (h : QMap_find m key = none) : QMap_insert m key value = m ++ [(key, value)] := by
  induction m with
  | nil => rfl
  | cons e m ih =>
    obtain ⟨k, w⟩ := e
    by_cases hk : k = key
    · simp [QMap_find, hk] at h
    · simp only [QMap_find, hk, if_false] at h
      simp [QMap_insert, hk, ih h]

theorem QMap_find_append_self (m : List (Nat × Nat)) (key value : Nat)
    (h : QMap_find m key = none) : QMap_find (m ++ [(key, value)]) key = some value := by
  induction m with
  | nil => simp [QMap_find]
  | cons e m ih =>
    obtain ⟨k, w⟩ := e
    by_cases hk : k = key
    · simp [QMap_find, hk] at h
    · simp only [QMap_find, hk, if_false] at h
      simp [QMap_find, hk, ih h]

theorem QMap_find_append_of_ne (m : List (Nat × Nat)) (key value k : Nat)
    (h : k ≠ key) : QMap_find (m ++ [(key, value)]) k = QMap_find m k := by
  induction m with
  | nil =>
    have h2 : ¬ key = k := fun e => h e.symm
    simp [QMap_find, h2]
  | cons e m ih =>
    obtain ⟨k1, w⟩ := e
    by_cases hk : k1 = k
    · simp [QMap_find, hk]
    · simp [QMap_find, hk, ih]

/-! ## The two branches of `inputMessage` -/

theorem inputMessage_hit (s : CanTreeModel) (f : can_message_t) (p : Nat)
    (h : QMap_find s.map (CanUniqueID f) = some p) :
    inputMessage s f =
      { s with
        heap := s.heap.modify (fun n => n.update f) p,
        emitted := s.emitted ++ [Signal.dataChanged p 2 7] } := by
  unfold inputMessage
  simp only [h]
  rfl

theorem inputMessage_miss (s : CanTreeModel) (f : can_message_t)
    (h : QMap_find s.map (CanUniqueID f) = none) :
    inputMessage s f =
      { heap := s.heap ++ [MessageTreeNode.ofMessage f],
        map := s.map ++ [(CanUniqueID f, s.heap.length)],
        rootChildren := s.rootChildren ++ [TreeNodeRef.message s.heap.length],
        emitted := s.emitted
          ++ [Signal.rowsInserted s.rootChildren.length s.rootChildren.length] } := by
  unfold inputMessage
  simp only [h, insertNode, QMap_insert_of_find_none _ _ _ h]
  simp

/-- After a frame is ingested its key is in the index. -/
theorem inputMessage_find_self (s : CanTreeModel) (f : can_message_t) :
    ∃ p, QMap_find (inputMessage s f).map (CanUniqueID f) = some p := by
  cases h : QMap_find s.map (CanUniqueID f) with
  | none =>
    rw [inputMessage_miss s f h]
    exact ⟨s.heap.length, QMap_find_append_self _ _ _ h⟩
  | some p =>
    rw [inputMessage_hit s f p h]
    exact ⟨p, h⟩

/-! ## States reached by ingest alone -/

theorem Ingested_empty : Ingested CanTreeModel.empty := by
  refine ⟨rfl, rfl, ?_⟩
  simp [CanTreeModel.empty]

theorem Ingested_inputMessage (s : CanTreeModel) (f : can_message_t) (h : Ingested s) :
    Ingested (inputMessage s f) := by
  obtain ⟨hv, hc, hk⟩ := h
  cases hf : QMap_find s.map (CanUniqueID f) with
  | some p =>
    rw [inputMessage_hit s f p hf]
    refine ⟨?_, ?_, hk⟩
    · simpa using hv
    · simpa using hc
  | none =>
    rw [inputMessage_miss s f hf]
    refine ⟨?_, ?_, ?_⟩
    · simp [List.range_succ, hv]
    · simp [List.range_succ, hc]
    · have hnot := (QMap_find_eq_none_iff s.map (CanUniqueID f)).mp hf
      simp only [List.map_append, List.map_cons, List.map_nil]
      rw [List.nodup_append]
      refine ⟨hk, List.nodup_singleton _, ?_⟩
      intro a ha hb
      rw [List.mem_singleton] at hb
      exact hnot (hb ▸ ha)

theorem mem_keys_inputMessage (s : CanTreeModel) (f : can_message_t) (k : Nat) :
    k ∈ (inputMessage s f).map.map Prod.fst
      ↔ k ∈ s.map.map Prod.fst ∨ k = CanUniqueID f := by
  cases hf : QMap_find s.map (CanUniqueID f) with
  | some p =>
    rw [inputMessage_hit s f p hf]
    constructor
    · intro h; exact Or.inl h
    · rintro (h | h)
      · exact h
      · have hm := QMap_find_some_mem _ _ _ hf
        rw [h]
        exact List.mem_map.mpr ⟨_, hm, rfl⟩
  | none =>
    rw [inputMessage_miss s f hf]
    simp

theorem Ingested_inputMessages (frames : List can_message_t) (s : CanTreeModel)
    (h : Ingested s) : Ingested (inputMessages s frames) := by
  induction frames generalizing s with
  | nil => exact h
  | cons f fs ih => exact ih (inputMessage s f) (Ingested_inputMessage s f h)

theorem mem_keys_inputMessages (frames : List can_message_t) (s : CanTreeModel) (k : Nat) :
    k ∈ (inputMessages s frames).map.map Prod.fst
      ↔ k ∈ s.map.map Prod.fst ∨ k ∈ frames.map CanUniqueID := by
  induction frames generalizing s with
  | nil => simp [inputMessages]
  | cons f fs ih =>
    have hstep : inputMessages s (f :: fs) = inputMessages (inputMessage s f) fs := rfl
    rw [hstep, ih (inputMessage s f), mem_keys_inputMessage]
    simp only [List.map_cons, List.mem_cons]
    constructor
    · rintro ((h | h) | h)
      · exact Or.inl h
      · exact Or.inr (Or.inl h)
      · exact Or.inr (Or.inr h)
    · rintro (h | h | h)
      · exact Or.inl (Or.inl h)
      · exact Or.inl (Or.inr h)
      · exact Or.inr h

/-- From the empty model, the index has one entry per distinct key among the
ingested frames, whatever the frames hold. -/
theorem inputMessages_map_length (frames : List can_message_t) :
    (inputMessages CanTreeModel.empty frames).map.length
      = ((frames.map CanUniqueID).dedup).length := by
  have hI := Ingested_inputMessages frames CanTreeModel.empty Ingested_empty
  have hperm : ((inputMessages CanTreeModel.empty frames).map.map Prod.fst).Perm
      ((frames.map CanUniqueID).dedup) := by
    rw [List.perm_ext_iff_of_nodup hI.2.2 (List.nodup_dedup _)]
    intro k
    rw [mem_keys_inputMessages, List.mem_dedup]
    simp [CanTreeModel.empty]
  have := hperm.length_eq
  simpa using this

theorem inputMessages_heap_length (frames : List can_message_t) :
    (inputMessages CanTreeModel.empty frames).heap.length
      = (inputMessages CanTreeModel.empty frames).map.length := by
  have hI := Ingested_inputMessages frames CanTreeModel.empty Ingested_empty
  have := congrArg List.length hI.1
  simpa using this.symm

/-- Valid frames have as many distinct keys as distinct identities. -/
theorem dedup_keys_length_eq (frames : List can_message_t)
    (hvalid : ∀ f ∈ frames, validFrame f) :
    ((frames.map CanUniqueID).dedup).length = ((frames.map identity).dedup).length := by
  rw [← List.card_toFinset, ← List.card_toFinset]
  symm
  refine Finset.card_bij (fun t _ => CanUniqueID ⟨t.1, t.2.1, t.2.2, 0, []⟩) ?_ ?_ ?_
  · intro t ht
    rw [List.mem_toFinset, List.mem_map] at ht
    obtain ⟨f, hf, rfl⟩ := ht
    rw [List.mem_toFinset, List.mem_map]
    exact ⟨f, hf, rfl⟩
  · intro t ht u hu htu
    rw [List.mem_toFinset, List.mem_map] at ht hu
    obtain ⟨f, hf, rfl⟩ := ht
    obtain ⟨g, hg, rfl⟩ := hu
    have hfg : CanUniqueID f = CanUniqueID g := htu
    exact (CanUniqueID_eq_iff f g (hvalid f hf) (hvalid g hg)).mp hfg
  · intro k hk
    rw [List.mem_toFinset, List.mem_map] at hk
    obtain ⟨f, hf, rfl⟩ := hk
    exact ⟨identity f, by rw [List.mem_toFinset]; exact List.mem_map.mpr ⟨f, hf, rfl⟩, rfl⟩

/-! ## Claims about the identity key -/

/-- C1: for every frame whose flags `IDE`, `RTR` are 0 or 1 (whatever its `id`
field holds), the key is `(id & 0x1FFFFFFF) | (IDE << 31) | (RTR << 30)` as a 32-bit
unsigned value: bits 0-28 are the low 29 bits of `id`, bit 29 is 0, bit 30 is `RTR`
and bit 31 is `IDE`. -/
theorem CanUniqueID_layout (f : can_message_t) (hI : f.IDE ≤ 1) (hR : f.RTR ≤ 1) :
    CanUniqueID f
        = ((f.id &&& 0x1FFFFFFF) ||| (f.IDE <<< 31) ||| (f.RTR <<< 30)) % 2 ^ 32
      ∧ CanUniqueID f < 2 ^ 32
      ∧ CanUniqueID f % 2 ^ 29 = f.id % 2 ^ 29
      ∧ (CanUniqueID f).testBit 29 = false
      ∧ (CanUniqueID f).testBit 30 = decide (f.RTR = 1)
      ∧ (CanUniqueID f).testBit 31 = decide (f.IDE = 1) := by
  have hsum := CanUniqueID_eq_sum f hI hR
  have hlt : f.id % 2 ^ 29 < 2 ^ 29 := Nat.mod_lt _ (by norm_num)
  refine ⟨CanUniqueID_eq_formula f hI, CanUniqueID_lt f, by omega, ?_, ?_, ?_⟩
  · rw [Nat.testBit_to_div_mod, decide_eq_false_iff_not]
    omega
  · rw [Nat.testBit_to_div_mod, decide_eq_decide]
    omega
  · rw [Nat.testBit_to_div_mod, decide_eq_decide]
    omega

theorem CanUniqueID_layout_witness :
    (1 : Nat) ≤ 1 ∧ (0 : Nat) ≤ 1
      ∧ CanUniqueID ⟨0xFFFFFFFF, 1, 0, 8, []⟩ = 0x9FFFFFFF
      ∧ (CanUniqueID ⟨0xFFFFFFFF, 1, 0, 8, []⟩).testBit 29 = false := by
  have h := CanUniqueID_layout ⟨0xFFFFFFFF, 1, 0, 8, []⟩ (by decide) (by decide)
  exact ⟨by decide, by decide, by decide, h.2.2.2.1⟩

/-- C2: for two frames with identifiers below `2 ^ 29` and flags 0 or 1, the keys
are equal exactly when the (identifier, extended flag, remote flag) triples are
equal; triples that differ in a component give different keys. -/
theorem CanUniqueID_eq_iff_identity (f g : can_message_t)
    (hf : f.id < 2 ^ 29) (hfI : f.IDE ≤ 1) (hfR : f.RTR ≤ 1)
    (hg : g.id < 2 ^ 29) (hgI : g.IDE ≤ 1) (hgR : g.RTR ≤ 1) :
    (CanUniqueID f = CanUniqueID g ↔ identity f = identity g)
      ∧ (identity f ≠ identity g → CanUniqueID f ≠ CanUniqueID g) := by
  have key := CanUniqueID_eq_iff f g ⟨hf, hfI, hfR⟩ ⟨hg, hgI, hgR⟩
  exact ⟨key, fun hne h => hne (key.mp h)⟩

theorem CanUniqueID_eq_iff_identity_witness :
    ((0x123 : Nat) < 2 ^ 29 ∧ (0 : Nat) ≤ 1 ∧ (1 : Nat) ≤ 1)
      ∧ CanUniqueID ⟨0x123, 0, 0, 2, [1, 2]⟩ ≠ CanUniqueID ⟨0x123, 1, 0, 2, [1, 2]⟩ :=
  ⟨by decide,
    (CanUniqueID_eq_iff_identity ⟨0x123, 0, 0, 2, [1, 2]⟩ ⟨0x123, 1, 0, 2, [1, 2]⟩
      (by decide) (by decide) (by decide) (by decide) (by decide) (by decide)).2 (by decide)⟩

/-! ## Claims about the column schema -/

/-- C8: the schema is the fixed list of eight fields Name, ID, DLC, Count, Period,
Raw Data, Decoded Data, Format String: `columnCount` is 8 for every parent,
`headerData(section, Horizontal, DisplayRole)` is the label of field `section` for
`0 ≤ section < 8`, and `headerData` is the empty `QVariant` for every other
section, orientation or role. -/
theorem headerData_schema (df0 : dataFunction) :
    (∀ parent : QModelIndex, columnCount parent = 8)
      ∧ m_columnFunctions.map Prod.fst
          = [dataFunction.dfName, dataFunction.dfID, dataFunction.dfDLC, dataFunction.dfCount,
             dataFunction.dfPeriod, dataFunction.dfRawData, dataFunction.dfDataDecoded,
             dataFunction.dfFormat]
      ∧ (List.range 8).map
            (fun i => headerData df0 (i : Int) Orientation.Horizontal DisplayRole)
          = [some "Name", some "ID (HEX)", some "DLC", some "Count", some "Period (ms)",
             some "Raw Data (HEX)", some "Decoded Data", some "Format String"]
      ∧ (∀ (section_ : Int) (orientation : Orientation) (role : Int),
          ¬ (0 ≤ section_ ∧ section_ < 8 ∧ orientation = Orientation.Horizontal
              ∧ role = DisplayRole) →
          headerData df0 section_ orientation role = none) := by
  refine ⟨fun _ => rfl, rfl, rfl, ?_⟩
  intro section_ orientation role h
  unfold headerData
  split
  · next hc =>
    have hr : ¬ (0 ≤ section_ ∧ section_ < 8) := fun hh => h ⟨hh.1, hh.2, hc.1, hc.2⟩
    have hlen : ((m_columnFunctions.length : Nat) : Int) = 8 := rfl
    unfold QList_value
    rw [hlen, if_neg hr]
  · rfl

theorem headerData_schema_witness :
    ¬ (0 ≤ (8 : Int) ∧ (8 : Int) < 8 ∧ Orientation.Horizontal = Orientation.Horizontal
        ∧ DisplayRole = DisplayRole)
      ∧ headerData dataFunction.dfName 8 Orientation.Horizontal DisplayRole = none :=
  ⟨by decide,
    (headerData_schema dataFunction.dfName).2.2.2 8 Orientation.Horizontal DisplayRole
      (by decide)⟩

/-- C9: an invalid index gets only drop-enabled; every valid index is enabled and
selectable; a valid index whose column lies in the schema is editable, drag-enabled
and drop-enabled exactly when its column is Name (column 0) or Format String
(column 7), so the columns ID, DLC, Count, Period, Raw Data and Decoded Data are
never editable. -/
theorem flags_editable_iff (df0 : dataFunction) (index : QModelIndex) :
    (index.isValid = false → flags df0 index = ItemIsDropEnabled)
      ∧ (index.isValid = true →
          testFlag (flags df0 index) ItemIsEnabled = true
            ∧ testFlag (flags df0 index) ItemIsSelectable = true
            ∧ (index.column < 8 →
                (testFlag (flags df0 index) ItemIsEditable = true
                    ↔ index.column = 0 ∨ index.column = 7)
                  ∧ (testFlag (flags df0 index) ItemIsDragEnabled = true
                    ↔ index.column = 0 ∨ index.column = 7)
                  ∧ (testFlag (flags df0 index) ItemIsDropEnabled = true
                    ↔ index.column = 0 ∨ index.column = 7)))
      ∧ columnOf dataFunction.dfName = some 0
      ∧ columnOf dataFunction.dfFormat = some 7 := by
  refine ⟨?_, ?_, rfl, rfl⟩
  · intro h
    simp [flags, h]
  · intro h
    have hflags : flags df0 index = (
        (match (QList_value m_columnFunctions index.column (df0, none)).1 with
          | dataFunction.dfName => ItemIsDragEnabled ||| ItemIsDropEnabled ||| ItemIsEditable
          | dataFunction.dfFormat => ItemIsDragEnabled ||| ItemIsDropEnabled ||| ItemIsEditable
          | _ => 0) ||| ItemIsEnabled ||| ItemIsSelectable) := by
      simp [flags, h]
    rw [hflags]
    refine ⟨?_, ?_, ?_⟩
    · cases (QList_value m_columnFunctions index.column (df0, none)).1 <;> decide
    · cases (QList_value m_columnFunctions index.column (df0, none)).1 <;> decide
    · intro hc
      have h0 : 0 ≤ index.column := by
        simp only [QModelIndex.isValid, Bool.and_eq_true, decide_eq_true_eq] at h
        exact h.1.2
      have hcases : index.column = 0 ∨ index.column = 1 ∨ index.column = 2 ∨ index.column = 3
          ∨ index.column = 4 ∨ index.column = 5 ∨ index.column = 6 ∨ index.column = 7 := by
        omega
      rcases hcases with e | e | e | e | e | e | e | e <;> rw [e] <;> cases df0 <;> decide

theorem flags_editable_iff_witness :
    QModelIndex.isValid ⟨0, 3, true⟩ = true ∧ (3 : Int) < 8
      ∧ ¬ (testFlag (flags dataFunction.dfName ⟨0, 3, true⟩) ItemIsEditable = true) := by
  have h := ((flags_editable_iff dataFunction.dfName ⟨0, 3, true⟩).2.1 (by decide)).2.2
    (by decide)
  exact ⟨by decide, by decide, fun he => by
    have := h.1.mp he
    revert this
    decide⟩

/-! ## Claims about ingest -/

/-- C3: starting from an empty model, after `inputMessage` has run on any finite
sequence of valid frames (identifier below `2 ^ 29`, one-bit flags) holding exactly
`N` distinct identities, the index has exactly `N` entries, `N` leaves have been
created, the root's children are exactly these `N` leaves, and every identity has
its own leaf: each frame's key is mapped to a leaf under the root, and frames of
different identities are mapped to different leaves. -/
theorem inputMessages_distinct_identities (frames : List can_message_t) (N : Nat)
    (hvalid : ∀ f ∈ frames, validFrame f)
    (hN : ((frames.map identity).dedup).length = N) :
    (inputMessages CanTreeModel.empty frames).map.length = N
      ∧ (inputMessages CanTreeModel.empty frames).heap.length = N
      ∧ (inputMessages CanTreeModel.empty frames).rootChildren
          = (List.range N).map TreeNodeRef.message
      ∧ (∀ f ∈ frames, ∃ p,
          QMap_find (inputMessages CanTreeModel.empty frames).map (CanUniqueID f) = some p
            ∧ TreeNodeRef.message p ∈ (inputMessages CanTreeModel.empty frames).rootChildren)
      ∧ (∀ f ∈ frames, ∀ g ∈ frames, identity f ≠ identity g →
          QMap_find (inputMessages CanTreeModel.empty frames).map (CanUniqueID f)
            ≠ QMap_find (inputMessages CanTreeModel.empty frames).map (CanUniqueID g)) := by
  have hI := Ingested_inputMessages frames CanTreeModel.empty Ingested_empty
  have hmap : (inputMessages CanTreeModel.empty frames).map.length = N := by
    rw [inputMessages_map_length, dedup_keys_length_eq frames hvalid, hN]
  have hheap : (inputMessages CanTreeModel.empty frames).heap.length = N := by
    rw [inputMessages_heap_length, hmap]
  have hfind : ∀ f ∈ frames, ∃ p,
      QMap_find (inputMessages CanTreeModel.empty frames).map (CanUniqueID f) = some p := by
    intro f hf
    apply QMap_find_of_mem_keys
    rw [mem_keys_inputMessages]
    exact Or.inr (List.mem_map.mpr ⟨f, hf, rfl⟩)
  refine ⟨hmap, hheap, ?_, ?_, ?_⟩
  · rw [hI.2.1, hheap]
  · intro f hf
    obtain ⟨p, hp⟩ := hfind f hf
    refine ⟨p, hp, ?_⟩
    have hm := QMap_find_some_mem _ _ _ hp
    have hps : p ∈ (inputMessages CanTreeModel.empty frames).map.map Prod.snd :=
      List.mem_map.mpr ⟨_, hm, rfl⟩
    rw [hI.1] at hps
    rw [hI.2.1]
    exact List.mem_map.mpr ⟨p, hps, rfl⟩
  · intro f hf g hg hne heq
    obtain ⟨p, hp⟩ := hfind f hf
    obtain ⟨q, hq⟩ := hfind g hg
    rw [hp, hq] at heq
    have hpq : p = q := Option.some.inj heq
    have hm1 := QMap_find_some_mem _ _ _ hp
    have hm2 := QMap_find_some_mem _ _ _ hq
    have hnd : ((inputMessages CanTreeModel.empty frames).map.map Prod.snd).Nodup := by
      rw [hI.1]; exact List.nodup_range _
    have hinj := List.inj_on_of_nodup_map hnd hm1 hm2 hpq
    have hk : CanUniqueID f = CanUniqueID g := congrArg Prod.fst hinj
    exact hne ((CanUniqueID_eq_iff f g (hvalid f hf) (hvalid g hg)).mp hk)

theorem inputMessages_distinct_identities_witness :
    (∀ f ∈ [(⟨0x123, 0, 0, 2, [1, 2]⟩ : can_message_t), ⟨0x123, 1, 0, 2, [1, 2]⟩],
        validFrame f)
      ∧ (inputMessages CanTreeModel.empty
          [⟨0x123, 0, 0, 2, [1, 2]⟩, ⟨0x123, 1, 0, 2, [1, 2]⟩]).map.length = 2
      ∧ (inputMessages CanTreeModel.empty
          [⟨0x123, 0, 0, 2, [1, 2]⟩, ⟨0x123, 1, 0, 2, [1, 2]⟩]).rootChildren
        = [TreeNodeRef.message 0, TreeNodeRef.message 1] := by
  have h := inputMessages_distinct_identities
    [⟨0x123, 0, 0, 2, [1, 2]⟩, ⟨0x123, 1, 0, 2, [1, 2]⟩] 2 (by decide) (by decide)
  exact ⟨by decide, h.1, h.2.2.1⟩

/-- C4: for every leaf and every frame (with a data-length-code that fits the
4-bit field), `update` raises the arrival count by exactly 1 and overwrites the
data-length-code and payload with the frame's, whatever they were before; identifier
and flags stay. On a hit `inputMessage` applies exactly this to the leaf the
index maps the frame's key to. -/
theorem update_count_dlc_data (n : MessageTreeNode) (f : can_message_t)
    (hdlc : f.dlc < 2 ^ 4) :
    (n.update f).m_count = n.m_count + 1
      ∧ (n.update f).dlc = f.dlc
      ∧ (n.update f).data = f.data
      ∧ (n.update f).id = n.id ∧ (n.update f).IDE = n.IDE ∧ (n.update f).RTR = n.RTR
      ∧ (∀ (s : CanTreeModel) (p : Nat),
          QMap_find s.map (CanUniqueID f) = some p → s.heap[p]? = some n →
          (inputMessage s f).heap[p]? = some (n.update f)) := by
  refine ⟨rfl, Nat.mod_eq_of_lt hdlc, rfl, rfl, rfl, rfl, ?_⟩
  intro s p hp hn
  rw [inputMessage_hit s f p hp]
  simp [List.getElem?_modify, hn]

theorem update_count_dlc_data_witness :
    (2 : Nat) < 2 ^ 4
      ∧ (MessageTreeNode.update ⟨0, 0, 0x123, 8, [9, 9, 9, 9, 9, 9, 9, 9], 41⟩
          ⟨0x123, 0, 0, 2, [1, 2]⟩)
        = ⟨0, 0, 0x123, 2, [1, 2], 42⟩ := by
  have h := update_count_dlc_data ⟨0, 0, 0x123, 8, [9, 9, 9, 9, 9, 9, 9, 9], 41⟩
    ⟨0x123, 0, 0, 2, [1, 2]⟩ (by decide)
  refine ⟨by decide, ?_⟩
  cases hu : MessageTreeNode.update ⟨0, 0, 0x123, 8, [9, 9, 9, 9, 9, 9, 9, 9], 41⟩
    ⟨0x123, 0, 0, 2, [1, 2]⟩ with
  | mk IDE RTR id dlc data m_count =>
    rw [hu] at h
    obtain ⟨h1, h2, h3, h4, h5, h6, _⟩ := h
    simp only at h1 h2 h3 h4 h5 h6
    subst h1 h2 h3 h4 h5 h6
    rfl

/-- C5: when the frame's key is already in the index, `inputMessage` leaves the
index (its keys and the node each maps to) and the root's children as they were,
allocates no node, and changes no heap node other than the one the key maps to,
which is updated in place. -/
theorem inputMessage_hit_structure (s : CanTreeModel) (f : can_message_t) (p : Nat)
    (h : QMap_find s.map (CanUniqueID f) = some p) :
    (inputMessage s f).map = s.map
      ∧ (inputMessage s f).rootChildren = s.rootChildren
      ∧ (inputMessage s f).heap.length = s.heap.length
      ∧ (∀ q, q ≠ p → (inputMessage s f).heap[q]? = s.heap[q]?)
      ∧ (inputMessage s f).heap[p]? = (s.heap[p]?).map (fun n => n.update f) := by
  rw [inputMessage_hit s f p h]
  refine ⟨rfl, rfl, by simp, ?_, ?_⟩
  · intro q hq
    have hq2 : ¬ p = q := fun e => hq e.symm
    simp [List.getElem?_modify, hq2]
  · simp [List.getElem?_modify]

theorem inputMessage_hit_structure_witness :
    QMap_find (inputMessage CanTreeModel.empty ⟨0x123, 0, 0, 2, [1, 2]⟩).map
        (CanUniqueID ⟨0x123, 0, 0, 1, [7]⟩) = some 0
      ∧ (inputMessage (inputMessage CanTreeModel.empty ⟨0x123, 0, 0, 2, [1, 2]⟩)
          ⟨0x123, 0, 0, 1, [7]⟩).rootChildren
        = (inputMessage CanTreeModel.empty ⟨0x123, 0, 0, 2, [1, 2]⟩).rootChildren :=
  ⟨by decide,
    (inputMessage_hit_structure (inputMessage CanTreeModel.empty ⟨0x123, 0, 0, 2, [1, 2]⟩)
      ⟨0x123, 0, 0, 1, [7]⟩ 0 (by decide)).2.1⟩

/-- C6 fails as stated: after a first frame has created leaf 0, ingesting the
frame again emits `dataChanged` over columns 2 to 7, whose column functions are
DLC, Count, Period, Raw Data, Decoded Data and Format String, so the span holds
Format String (and DLC) and is not the four columns Count to Decoded Data. -/
theorem dataChanged_span_not_four_columns :
    QMap_find (inputMessage CanTreeModel.empty ⟨0x123, 0, 0, 2, [1, 2]⟩).map
        (CanUniqueID ⟨0x123, 0, 0, 2, [1, 2]⟩) = some 0
      ∧ (inputMessage (inputMessage CanTreeModel.empty ⟨0x123, 0, 0, 2, [1, 2]⟩)
          ⟨0x123, 0, 0, 2, [1, 2]⟩).emitted
        = (inputMessage CanTreeModel.empty ⟨0x123, 0, 0, 2, [1, 2]⟩).emitted
            ++ [Signal.dataChanged 0 2 7]
      ∧ dataFunction.dfFormat
          ∈ notifiedFunctions dataFunction.dfName (Signal.dataChanged 0 2 7)
      ∧ dataFunction.dfDLC
          ∈ notifiedFunctions dataFunction.dfName (Signal.dataChanged 0 2 7)
      ∧ notifiedFunctions dataFunction.dfName (Signal.dataChanged 0 2 7)
          ≠ [dataFunction.dfCount, dataFunction.dfPeriod, dataFunction.dfRawData,
             dataFunction.dfDataDecoded] := by
  decide

/-- C6 as amended: on a hit `inputMessage` emits exactly one signal, a
`dataChanged` for the updated node spanning columns 2 to `columnCount() - 1 = 7`,
that is DLC, Count, Period, Raw Data, Decoded Data and Format String: the span
holds the four columns Count, Period, Raw Data and Decoded Data and holds neither
Name nor ID. -/
theorem inputMessage_hit_dataChanged (df0 : dataFunction) (s : CanTreeModel)
    (f : can_message_t) (p : Nat) (h : QMap_find s.map (CanUniqueID f) = some p) :
    (inputMessage s f).emitted = s.emitted ++ [Signal.dataChanged p 2 7]
      ∧ notifiedColumns (Signal.dataChanged p 2 7) = [2, 3, 4, 5, 6, 7]
      ∧ notifiedFunctions df0 (Signal.dataChanged p 2 7)
          = [dataFunction.dfDLC, dataFunction.dfCount, dataFunction.dfPeriod,
             dataFunction.dfRawData, dataFunction.dfDataDecoded, dataFunction.dfFormat]
      ∧ dataFunction.dfName ∉ notifiedFunctions df0 (Signal.dataChanged p 2 7)
      ∧ dataFunction.dfID ∉ notifiedFunctions df0 (Signal.dataChanged p 2 7) := by
  have hf : notifiedFunctions df0 (Signal.dataChanged p 2 7)
      = [dataFunction.dfDLC, dataFunction.dfCount, dataFunction.dfPeriod,
         dataFunction.dfRawData, dataFunction.dfDataDecoded, dataFunction.dfFormat] := rfl
  refine ⟨?_, rfl, hf, ?_, ?_⟩
  · rw [inputMessage_hit s f p h]
  · rw [hf]; decide
  · rw [hf]; decide

theorem inputMessage_hit_dataChanged_witness :
    QMap_find (inputMessage CanTreeModel.empty ⟨0x123, 0, 0, 2, [1, 2]⟩).map
        (CanUniqueID ⟨0x123, 0, 0, 2, [1, 2]⟩) = some 0
      ∧ (inputMessage (inputMessage CanTreeModel.empty ⟨0x123, 0, 0, 2, [1, 2]⟩)
          ⟨0x123, 0, 0, 2, [1, 2]⟩).emitted
        = (inputMessage CanTreeModel.empty ⟨0x123, 0, 0, 2, [1, 2]⟩).emitted
            ++ [Signal.dataChanged 0 2 7] :=
  ⟨by decide,
    (inputMessage_hit_dataChanged dataFunction.dfName
      (inputMessage CanTreeModel.empty ⟨0x123, 0, 0, 2, [1, 2]⟩)
      ⟨0x123, 0, 0, 2, [1, 2]⟩ 0 (by decide)).1⟩

/-- C7: when the frame's key is not in the index, `inputMessage` creates one new
leaf from the frame (arrival count 1), appends it as the last child of the root,
and adds exactly one index entry mapping the key to the new leaf; every earlier
heap node, index entry and child of the root is unchanged, and the only signal
emitted is the structural insert, so no `dataChanged` is emitted. -/
theorem inputMessage_miss_appends (s : CanTreeModel) (f : can_message_t)
    (h : QMap_find s.map (CanUniqueID f) = none) :
    (inputMessage s f).heap = s.heap ++ [MessageTreeNode.ofMessage f]
      ∧ (MessageTreeNode.ofMessage f).m_count = 1
      ∧ (MessageTreeNode.ofMessage f).data = f.data
      ∧ (inputMessage s f).rootChildren
          = s.rootChildren ++ [TreeNodeRef.message s.heap.length]
      ∧ (inputMessage s f).map = s.map ++ [(CanUniqueID f, s.heap.length)]
      ∧ QMap_find (inputMessage s f).map (CanUniqueID f) = some s.heap.length
      ∧ (∀ k, k ≠ CanUniqueID f →
          QMap_find (inputMessage s f).map k = QMap_find s.map k)
      ∧ (inputMessage s f).emitted
          = s.emitted ++ [Signal.rowsInserted s.rootChildren.length s.rootChildren.length]
      ∧ (∀ node left right,
          Signal.dataChanged node left right ∈ (inputMessage s f).emitted →
          Signal.dataChanged node left right ∈ s.emitted) := by
  rw [inputMessage_miss s f h]
  refine ⟨rfl, rfl, rfl, rfl, rfl, QMap_find_append_self _ _ _ h, ?_, rfl, ?_⟩
  · intro k hk
    exact QMap_find_append_of_ne _ _ _ _ hk
  · intro node left right hmem
    simpa using hmem

theorem inputMessage_miss_appends_witness :
    QMap_find (inputMessage CanTreeModel.empty ⟨0x123, 0, 0, 2, [1, 2]⟩).map
        (CanUniqueID ⟨0x123, 1, 0, 2, [1, 2]⟩) = none
      ∧ (inputMessage (inputMessage CanTreeModel.empty ⟨0x123, 0, 0, 2, [1, 2]⟩)
          ⟨0x123, 1, 0, 2, [1, 2]⟩).rootChildren
        = (inputMessage CanTreeModel.empty ⟨0x123, 0, 0, 2, [1, 2]⟩).rootChildren
            ++ [TreeNodeRef.message
                (inputMessage CanTreeModel.empty ⟨0x123, 0, 0, 2, [1, 2]⟩).heap.length] :=
  ⟨by decide,
    (inputMessage_miss_appends (inputMessage CanTreeModel.empty ⟨0x123, 0, 0, 2, [1, 2]⟩)
      ⟨0x123, 1, 0, 2, [1, 2]⟩ (by decide)).2.2.2.1⟩

/-- C10: the key depends only on the low 29 bits of the `id` field. Two frames
with equal flags whose `id` fields agree on bits 0-28 get the same key whatever
bits 29-31 hold, so once one is ingested the other is a hit on the same leaf and
creates nothing; and there are frames with 32-bit identifiers and one-bit flags
that have different identities but the same key. -/
theorem CanUniqueID_low_29_bits (f g : can_message_t)
    (hlow : f.id % 2 ^ 29 = g.id % 2 ^ 29) (hI : f.IDE = g.IDE) (hR : f.RTR = g.RTR) :
    CanUniqueID f = CanUniqueID g
      ∧ (∀ s : CanTreeModel, ∃ p,
          QMap_find (inputMessage s f).map (CanUniqueID f) = some p
            ∧ QMap_find (inputMessage s f).map (CanUniqueID g) = some p
            ∧ (inputMessage (inputMessage s f) g).map = (inputMessage s f).map
            ∧ (inputMessage (inputMessage s f) g).rootChildren
                = (inputMessage s f).rootChildren
            ∧ (inputMessage (inputMessage s f) g).heap.length
                = (inputMessage s f).heap.length)
      ∧ (∃ a b : can_message_t, a.id < 2 ^ 32 ∧ b.id < 2 ^ 32
          ∧ a.IDE ≤ 1 ∧ a.RTR ≤ 1 ∧ b.IDE ≤ 1 ∧ b.RTR ≤ 1
          ∧ identity a ≠ identity b ∧ CanUniqueID a = CanUniqueID b) := by
  have hkey := CanUniqueID_congr f g hlow hI hR
  refine ⟨hkey, ?_, ?_⟩
  · intro s
    obtain ⟨p, hp⟩ := inputMessage_find_self s f
    have hpg : QMap_find (inputMessage s f).map (CanUniqueID g) = some p := hkey ▸ hp
    refine ⟨p, hp, hpg, ?_, ?_, ?_⟩
    · rw [inputMessage_hit (inputMessage s f) g p hpg]
    · rw [inputMessage_hit (inputMessage s f) g p hpg]
    · rw [inputMessage_hit (inputMessage s f) g p hpg]
      simp
  · exact ⟨⟨0x123, 0, 0, 0, []⟩, ⟨0x20000123, 0, 0, 0, []⟩, by decide⟩

theorem CanUniqueID_low_29_bits_witness :
    ((0x123 : Nat) % 2 ^ 29 = 0x20000123 % 2 ^ 29)
      ∧ CanUniqueID ⟨0x123, 1, 0, 2, [1, 2]⟩ = CanUniqueID ⟨0x20000123, 1, 0, 2, [1, 2]⟩ :=
  ⟨by decide,
    (CanUniqueID_low_29_bits ⟨0x123, 1, 0, 2, [1, 2]⟩ ⟨0x20000123, 1, 0, 2, [1, 2]⟩
      (by decide) rfl rfl).1⟩

end CanMonitor
